import Mathlib

/- Verification of the mile tokenizer.

   The repository has two source files:
     - src/rule.rs : the rule-matching engine (MatchResult, Rule, Rule::matches);
     - src/lib.rs  : the incremental lexer loop (Error, Lexer, Lexer::step,
       the Iterator instance) built on top of the rule engine.

   Both are embedded below.  Text is modelled as a list of characters; the
   character-class predicates of Rust (char::is_numeric, char::is_alphabetic,
   char::is_whitespace) are modelled by Char.isDigit, Char.isAlpha and
   Char.isWhitespace, which agree with them on ASCII text (every concrete
   window in this development is ASCII).  A separate byte-level model of the
   slicing done by Lexer::step (stepBytes below) accounts for the fact that
   Rust str indexing is by byte and faults on non-character-boundary offsets. -/

namespace Mile

/-- A text window: the list of characters of the candidate substring. -/
abbrev Str := List Char

/-- Embeds enum MatchResult of src/rule.rs: the tri-state outcome of
evaluating one rule against one window (None / Match(Option value) /
PartialMatch). -/
inductive MatchResult (T : Type) where
  | None
  | Match (t : Option T)
  | PartialMatch
deriving DecidableEq

/-- Embeds MatchResult::is_none of src/rule.rs. -/
def MatchResult.isNone {T : Type} : MatchResult T → Bool
  | .None => true
  | _ => false

/-- Embeds MatchResult::is_match of src/rule.rs. -/
def MatchResult.isMatch {T : Type} : MatchResult T → Bool
  | .Match _ => true
  | _ => false

/-- Embeds MatchResult::is_partial_match of src/rule.rs. -/
def MatchResult.isPartialMatch {T : Type} : MatchResult T → Bool
  | .PartialMatch => true
  | _ => false

/-- Embeds enum Rule of src/rule.rs.  Rust borrows sub-rules by reference;
the embedding stores them directly (the tree is immutable data either way).
Extractors fn(&str) -> T become functions Str → T. -/
inductive Rule (T : Type) where
  | Literal (lit : Str)
  | Numeric
  | Alphabetic
  | Whitespace
  | Value (r : Rule T) (out : Str → T)
  | Ignore (r : Rule T)
  | EndsWith (lit : Str)
  | Not (r : Rule T)
  | Only (r : Rule T)
  | Both (a b : Rule T)
  | Either (a b : Rule T)
  | All (rs : List (Rule T)) (out : Str → T)
  | Any (rs : List (Rule T))

mutual

/-- Embeds Rule::matches of src/rule.rs (lines 63-169).  Each arm mirrors the
corresponding match arm of the source; the then_some/unwrap_or chains of the
source are written as if-then-else chains over the same Boolean tests.
In the Literal arm, Rust value.eq(literal) is the equality test and
literal.starts_with(value) is the prefix test (the window is a prefix of the
literal). -/
def Rule.matches {T : Type} : Rule T → Str → MatchResult T
  | .Literal l, v =>
      if v = l then .Match none
      else if v.isPrefixOf l then .PartialMatch
      else .None
  | .Numeric, v => if v.all Char.isDigit then .Match none else .None
  | .Alphabetic, v => if v.all Char.isAlpha then .Match none else .None
  | .Whitespace, v => if v.all Char.isWhitespace then .Match none else .None
  | .Value r out, v =>
      if (Rule.matches r v).isMatch then .Match (some (out v))
      else if (Rule.matches r v).isPartialMatch then .PartialMatch
      else .None
  | .Ignore r, v => Rule.matches r v
  | .EndsWith l, v => if l.isSuffixOf v then .Match none else .None
  | .Not r, v => if (Rule.matches r v).isNone then .Match none else .None
  | .Only r, v => Rule.matches r v
  | .Both a b, v =>
      if (Rule.matches a v).isMatch then
        (if (Rule.matches b v).isMatch then .Match none else .None)
      else .None
  | .Either a b, v =>
      if (Rule.matches a v).isMatch then .Match none
      else if (Rule.matches a v).isPartialMatch then .PartialMatch
      else if (Rule.matches b v).isMatch then .Match none
      else if (Rule.matches b v).isPartialMatch then .PartialMatch
      else .None
  | .All rs out, v =>
      match Rule.allWalk rs v with
      | some early => early
      | none => .Match (some (out v))
  | .Any rs, v => Rule.anyWalk rs v 0

/-- Embeds the loop of the All arm of Rule::matches (src/rule.rs lines
140-150): the first sub-rule yielding None or PartialMatch short-circuits
(returned as some); if every sub-rule fully matches the loop falls through
(returned as none, and the caller produces Match (some (out v))). -/
def Rule.allWalk {T : Type} : List (Rule T) → Str → Option (MatchResult T)
  | [], _ => none
  | r :: rs, v =>
      match Rule.matches r v with
      | .None => some .None
      | .PartialMatch => some .PartialMatch
      | .Match _ => Rule.allWalk rs v

/-- Embeds the loop of the Any arm of Rule::matches (src/rule.rs lines
151-167): cnt is the running count of PartialMatch results (the local
variable named matches in the source, initially 0); a sub-rule's full match
is returned immediately only when cnt = 0, and the loop ends in None. -/
def Rule.anyWalk {T : Type} : List (Rule T) → Str → Nat → MatchResult T
  | [], _, _ => .None
  | r :: rs, v, cnt =>
      match Rule.matches r v with
      | .None => Rule.anyWalk rs v cnt
      | .Match tok => if cnt = 0 then .Match tok else Rule.anyWalk rs v cnt
      | .PartialMatch => Rule.anyWalk rs v (cnt + 1)

end

/-- Embeds enum Error of src/lib.rs. -/
inductive Error where
  | None
  | Eof
  | UnknownToken (s : Str)
deriving DecidableEq

/-- Embeds struct Lexer of src/lib.rs: the scanner state.  index is the pair
(start, end) of window offsets into buffer; data caches the current slice. -/
structure Lexer (T : Type) where
  data : Str
  buffer : Str
  rule : Rule T
  index : Nat × Nat

/-- Embeds Lexer::new of src/lib.rs. -/
def Lexer.new {T : Type} (rule : Rule T) : Lexer T :=
  ⟨[], [], rule, (0, 0)⟩

/-- Embeds Lexer::with_buffer of src/lib.rs. -/
def Lexer.with_buffer {T : Type} (rule : Rule T) (buffer : Str) : Lexer T :=
  ⟨[], buffer, rule, (0, 0)⟩

/-- Embeds Lexer::reset of src/lib.rs. -/
def Lexer.reset {T : Type} (l : Lexer T) (buffer : Str) : Lexer T :=
  ⟨[], buffer, l.rule, (0, 0)⟩

/-- Embeds Lexer::step of src/lib.rs (lines 48-66).  The mutation of self is
modelled by returning the updated state next to the Result value.  The end
offset is incremented first; if it reaches or exceeds the buffer length the
call fails with Error.Eof before slicing or rule evaluation (the println
tracing of the source is dropped, as it does not affect the state or the
result).  The slice buffer[start..end] is modelled at character level; the
byte-level model stepBytes below covers the boundary behavior of Rust str
indexing. -/
def Lexer.step {T : Type} (l : Lexer T) : Lexer T × Except Error (Option T) :=
  let e := l.index.2 + 1
  if e ≥ l.buffer.length then
    ({ l with index := (l.index.1, e) }, .error .Eof)
  else
    let d := (l.buffer.drop l.index.1).take (e - l.index.1)
    match Rule.matches l.rule d with
    | .None | .PartialMatch => ({ l with data := d, index := (l.index.1, e) }, .ok none)
    | .Match token => ({ l with data := d, index := (e, e) }, .ok token)

/-- Embeds the Iterator implementation for Lexer of src/lib.rs (lines 69-78):
next calls step and converts any error into end of iteration (none). -/
def Lexer.next {T : Type} (l : Lexer T) : Lexer T × Option (Option T) :=
  match l.step with
  | (l2, .ok t) => (l2, some t)
  | (l2, .error _) => (l2, none)

/-- Drives step repeatedly (as the for loop over the Lexer iterator in the
source test does), collecting the Ok payloads until the first error.  The
fuel argument bounds the number of calls; any fuel past the first error is
unused. -/
def Lexer.drive {T : Type} : Nat → Lexer T → List (Option T)
  | 0, _ => []
  | n + 1, l =>
      match l.step with
      | (_, .error _) => []
      | (l2, .ok t) => t :: Lexer.drive n l2

/-- The state after n consecutive step calls (errors included: step still
updates the state when it returns an error). -/
def Lexer.stepN {T : Type} (l : Lexer T) : Nat → Lexer T
  | 0 => l
  | n + 1 => ((l.stepN n).step).1

/-- A small token type for the concrete scenarios of the claims: a keyword
token for the literal "or", and an identifier token carrying the window. -/
inductive Tok where
  | KOr
  | Ident (s : Str)
deriving DecidableEq

/-- Models the continuation-byte test on a UTF-8 byte: bytes 0x80..0xBF are
continuation bytes, which are not character boundaries. -/
def contByte (b : Nat) : Bool := 128 ≤ b && b < 192

/-- Models str::is_char_boundary of Rust for a buffer given as its list of
UTF-8 bytes: offset 0 and the total length are boundaries, any other offset
is a boundary exactly when it is in range and does not point at a
continuation byte. -/
def isCharBoundary (buf : List Nat) (i : Nat) : Bool :=
  i == 0 || i == buf.length || (decide (i < buf.length) && !contByte (buf.getD i 0))

/-- Models the Rust string slice buffer[s..e] on UTF-8 bytes: defined (some)
exactly when s ≤ e and both offsets are character boundaries; the none
result models the panic Rust raises for str range indexing otherwise. -/
def sliceBytes (buf : List Nat) (s e : Nat) : Option (List Nat) :=
  if s ≤ e && isCharBoundary buf s && isCharBoundary buf e then
    some ((buf.drop s).take (e - s))
  else none

/-- Byte-level model of Lexer::step of src/lib.rs: the buffer is the list of
its UTF-8 bytes (str::len of Rust counts bytes, matching List.length here),
m abstracts Rule::matches applied to the byte window, and a none result
models the slicing panic; a some result carries the updated (start, end)
offsets and the step result, exactly as in the character-level Lexer.step. -/
def stepBytes {T : Type} (m : List Nat → MatchResult T) (buf : List Nat)
    (idx : Nat × Nat) : Option ((Nat × Nat) × Except Error (Option T)) :=
  let e := idx.2 + 1
  if e ≥ buf.length then some ((idx.1, e), .error .Eof)
  else
    match sliceBytes buf idx.1 e with
    | none => none
    | some w =>
        match m w with
        | .None | .PartialMatch => some ((idx.1, e), .ok none)
        | .Match token => some ((e, e), .ok token)

/-- Applies a function to the token carried by a match result, preserving
the classification (the functorial map on MatchResult). -/
def MatchResult.mapVal {T U : Type} (g : T → U) : MatchResult T → MatchResult U
  | .None => .None
  | .Match t => .Match (t.map g)
  | .PartialMatch => .PartialMatch

/-- True when a match result does not carry an extracted value (it is not a
full match of the form Match (some value)). -/
def MatchResult.valueFree {T : Type} : MatchResult T → Bool
  | .Match (some _) => false
  | _ => true

mutual

/-- Applies a function to every extracted token of a rule tree, leaving the
shape of the tree unchanged: the extractors of Value and All nodes are
post-composed with g. -/
def Rule.mapTok {T U : Type} (g : T → U) : Rule T → Rule U
  | .Literal l => .Literal l
  | .Numeric => .Numeric
  | .Alphabetic => .Alphabetic
  | .Whitespace => .Whitespace
  | .Value r out => .Value (Rule.mapTok g r) (fun v => g (out v))
  | .Ignore r => .Ignore (Rule.mapTok g r)
  | .EndsWith l => .EndsWith l
  | .Not r => .Not (Rule.mapTok g r)
  | .Only r => .Only (Rule.mapTok g r)
  | .Both a b => .Both (Rule.mapTok g a) (Rule.mapTok g b)
  | .Either a b => .Either (Rule.mapTok g a) (Rule.mapTok g b)
  | .All rs out => .All (Rule.mapTokList g rs) (fun v => g (out v))
  | .Any rs => .Any (Rule.mapTokList g rs)

/-- mapTok applied to every rule of a list. -/
def Rule.mapTokList {T U : Type} (g : T → U) : List (Rule T) → List (Rule U)
  | [] => []
  | r :: rs => Rule.mapTok g r :: Rule.mapTokList g rs

end

mutual

/-- True when the rule tree contains a Value or All node anywhere — the only
two constructors whose match arms build a full match carrying a value. -/
def Rule.hasExtract {T : Type} : Rule T → Bool
  | .Literal _ => false
  | .Numeric => false
  | .Alphabetic => false
  | .Whitespace => false
  | .EndsWith _ => false
  | .Value _ _ => true
  | .All _ _ => true
  | .Ignore r => Rule.hasExtract r
  | .Not r => Rule.hasExtract r
  | .Only r => Rule.hasExtract r
  | .Both a b => Rule.hasExtract a || Rule.hasExtract b
  | .Either a b => Rule.hasExtract a || Rule.hasExtract b
  | .Any rs => Rule.hasExtractList rs

/-- hasExtract over a list of rules. -/
def Rule.hasExtractList {T : Type} : List (Rule T) → Bool
  | [] => false
  | r :: rs => Rule.hasExtract r || Rule.hasExtractList rs

end

/-- The rule of claim C5: Any over Value(Literal "or", KOr) and
Value(Alphabetic, Ident). -/
def c5Rule : Rule Tok :=
  .Any [.Value (.Literal "or".toList) (fun _ => .KOr),
        .Value .Alphabetic (fun v => .Ident v)]

/-- The rule set of claim C1: Any over Value(Literal "end", f) and
Ignore(Whitespace), with f the extractor producing an identifier token that
carries the window text. -/
def c1Rule : Rule Tok :=
  .Any [.Value (.Literal "end".toList) (fun v => .Ident v), .Ignore .Whitespace]

/-- C1, counterexample: scanning the buffer "end" with the rule set
containing only Value(Literal "end", f) and Ignore(Whitespace) and stepping
until the end-of-input error emits NO token (the two Ok results are both
empty), so it does not emit one token equal to f "end" with window [0,3):
step increments end first and errors as soon as end reaches the buffer
length 3, so the full window [0,3) is never evaluated. -/
theorem c1_counterexample :
    Lexer.drive 10 (Lexer.with_buffer c1Rule "end".toList) = [none, none] ∧
    (Lexer.drive 10 (Lexer.with_buffer c1Rule "end".toList)).filterMap id
      ≠ [Tok.Ident "end".toList] := by
  decide

/-- C1, amended: scanning the buffer "end" with the rule set containing only
Value(Literal "end", f) and Ignore(Whitespace) emits no token at all: the
two successful step calls produce no token, the third errors with
end-of-input at offsets (0,3) before the window [0,3) is evaluated, and
nothing is consumed.  Only when the buffer extends past the lexeme (buffer
"end ") does the scan emit exactly one token f "end", consuming exactly the
window partition [0,3) with no overlap (offsets (3,3) after the third
step). -/
theorem c1_amended :
    Lexer.drive 10 (Lexer.with_buffer c1Rule "end".toList) = [none, none] ∧
    (Lexer.stepN (Lexer.with_buffer c1Rule "end".toList) 3).index = (0, 3) ∧
    Lexer.drive 10 (Lexer.with_buffer c1Rule "end ".toList)
      = [none, none, some (Tok.Ident "end".toList)] ∧
    (Lexer.stepN (Lexer.with_buffer c1Rule "end ".toList) 2).index = (0, 2) ∧
    (Lexer.stepN (Lexer.with_buffer c1Rule "end ".toList) 3).index = (3, 3) := by
  decide

/-- C3: whenever rule A classifies the window as PartialMatch, Either(A, B)
classifies it as PartialMatch regardless of B; concretely,
Either(Literal "function", Literal "func") on the window "func" yields
PartialMatch even though Literal "func" alone yields a full match. -/
theorem c3_either_defers (T : Type) (A B : Rule T) (W : Str)
    (h : Rule.matches A W = .PartialMatch) :
    Rule.matches (.Either A B) W = .PartialMatch ∧
    Rule.matches
        (.Either (.Literal "function".toList) (.Literal "func".toList) : Rule Tok)
        "func".toList = .PartialMatch ∧
    Rule.matches (.Literal "func".toList : Rule Tok) "func".toList = .Match none := by
  refine ⟨?_, by decide, by decide⟩
  simp [Rule.matches, h, MatchResult.isMatch, MatchResult.isPartialMatch]

/-- C3, witness: the general part applied to A = Literal "ab", B = Numeric
and the window "a", where A is a proper prefix of the literal. -/
theorem c3_either_defers_witness :
    Rule.matches (.Either (.Literal "ab".toList) .Numeric : Rule Unit) "a".toList
      = .PartialMatch ∧
    Rule.matches
        (.Either (.Literal "function".toList) (.Literal "func".toList) : Rule Tok)
        "func".toList = .PartialMatch ∧
    Rule.matches (.Literal "func".toList : Rule Tok) "func".toList = .Match none :=
  c3_either_defers Unit (.Literal "ab".toList) .Numeric "a".toList (by decide)

/-- C4, counterexample: with A = Value(Literal "a", Ident) and B = Numeric on
the window "a", rule A fully matches carrying the value Ident "a", but
Either(A, B) returns Match(none): the Either arm rebuilds Match(None) and
discards the value instead of returning the same FullMatch. -/
theorem c4_counterexample :
    Rule.matches (.Value (.Literal "a".toList) Tok.Ident : Rule Tok) "a".toList
      = .Match (some (Tok.Ident "a".toList)) ∧
    Rule.matches (.Either (.Value (.Literal "a".toList) Tok.Ident) .Numeric : Rule Tok)
        "a".toList = .Match none ∧
    (MatchResult.Match none : MatchResult Tok)
      ≠ .Match (some (Tok.Ident "a".toList)) := by
  decide

/-- C4, amended: when A fully matches (whatever value v its own FullMatch
carries), Either(A, B) returns FullMatch(none), discarding the value; and
symmetrically, when A yields NoMatch and B fully matches carrying v,
Either(A, B) also returns FullMatch(none). -/
theorem c4_amended (T : Type) (A B : Rule T) (W : Str) (v : Option T)
    (h : Rule.matches A W = .Match v ∨
         (Rule.matches A W = .None ∧ Rule.matches B W = .Match v)) :
    Rule.matches (.Either A B) W = .Match none := by
  rcases h with h | ⟨h1, h2⟩
  · simp [Rule.matches, h, MatchResult.isMatch]
  · simp [Rule.matches, h1, h2, MatchResult.isMatch, MatchResult.isPartialMatch]

/-- C4, witness: the amended claim applied to A = Value(Literal "b", Ident),
B = Whitespace on the window "b", where A fully matches carrying a value. -/
theorem c4_amended_witness :
    Rule.matches (.Either (.Value (.Literal "b".toList) Tok.Ident) .Whitespace : Rule Tok)
        "b".toList = .Match none :=
  c4_amended Tok (.Value (.Literal "b".toList) Tok.Ident) .Whitespace "b".toList
    (some (Tok.Ident "b".toList)) (Or.inl (by decide))

/-- C5, counterexample: on the window "or" the rule
Any([Value(Literal "or", f1), Value(Alphabetic, f2)]) returns the literal
keyword token as a full match, never PartialMatch — also while scanning
"organization", since a rule classification depends only on the window text,
so the claimed PartialMatch at the window "or" is wrong. -/
theorem c5_counterexample :
    Rule.matches c5Rule "or".toList = .Match (some Tok.KOr) ∧
    Rule.matches c5Rule "or".toList ≠ .PartialMatch := by
  decide

/-- C5, amended: on the window "or" the rule returns the literal keyword
token (earliest full match with zero prior PartialMatch results) — including
at the window "or" reached while scanning "organization", where the result
is this full match, not PartialMatch; on the shorter window "o" the literal
is a live prefix candidate, so the dropped Alphabetic full match leaves an
overall NoMatch; and on windows longer than 2 characters ("org", "orga")
Literal "or" yields NoMatch, so the Alphabetic alternative wins with a full
match carrying the identifier token. -/
theorem c5_amended :
    Rule.matches c5Rule "or".toList = .Match (some Tok.KOr) ∧
    Rule.matches c5Rule "o".toList = .None ∧
    Rule.matches (.Literal "or".toList : Rule Tok) "org".toList = .None ∧
    Rule.matches c5Rule "org".toList = .Match (some (Tok.Ident "org".toList)) ∧
    Rule.matches c5Rule "orga".toList = .Match (some (Tok.Ident "orga".toList)) := by
  decide

/-- C6: a step call whose incremented end offset reaches the buffer length
returns the end-of-input error, leaving every component but the end offset
unchanged (no slice is taken, no rule evaluated, no token produced, for
every rule tree alike), and the iterator next converts that error into end
of iteration; moreover every step call, error or not, increments the end
offset by exactly one. -/
theorem c6_eof_no_token (T : Type) (l : Lexer T)
    (h : l.index.2 + 1 ≥ l.buffer.length) :
    l.step = ({ l with index := (l.index.1, l.index.2 + 1) }, .error .Eof) ∧
    l.next = ({ l with index := (l.index.1, l.index.2 + 1) }, none) ∧
    ∀ (l2 : Lexer T), ((l2.step).1).index.2 = l2.index.2 + 1 := by
  have h1 : l.step = ({ l with index := (l.index.1, l.index.2 + 1) }, .error .Eof) := by
    simp only [Lexer.step]
    rw [if_pos h]
  refine ⟨h1, ?_, ?_⟩
  · simp only [Lexer.next, h1]
  · intro l2
    simp only [Lexer.step]
    split
    · rfl
    · split <;> rfl

/-- C6, witness: the theorem applied to a fresh lexer over the empty buffer,
where the first step call already exhausts the input. -/
theorem c6_eof_no_token_witness :
    (Lexer.new (Rule.Numeric : Rule Unit)).step
      = ({ Lexer.new (Rule.Numeric : Rule Unit) with index := (0, 1) }, .error .Eof) ∧
    (Lexer.new (Rule.Numeric : Rule Unit)).next
      = ({ Lexer.new (Rule.Numeric : Rule Unit) with index := (0, 1) }, none) ∧
    ∀ (l2 : Lexer Unit), ((l2.step).1).index.2 = l2.index.2 + 1 :=
  c6_eof_no_token Unit (Lexer.new .Numeric) (Nat.zero_le 1)

/-- C7, counterexample: one step call on a fresh lexer with the empty buffer
already breaks the invariant end ≤ len(buffer): the end offset becomes 1
while the buffer length is 0, because the Eof-returning step still
increments end without regard to the buffer length. -/
theorem c7_counterexample :
    ((Lexer.new (Rule.Whitespace : Rule Unit)).step).1.index.2 = 1 ∧
    ((Lexer.new (Rule.Whitespace : Rule Unit)).step).1.buffer.length = 0 ∧
    ¬ ((Lexer.new (Rule.Whitespace : Rule Unit)).step).1.index.2
        ≤ ((Lexer.new (Rule.Whitespace : Rule Unit)).step).1.buffer.length := by
  decide

/-- C7, amended: the invariant 0 ≤ start ≤ end ≤ len(buffer) holds after
new, with_buffer and reset; every step call preserves start ≤ end and leaves
the buffer unchanged; and after a step call that returns Ok the full
invariant still holds (indeed end < len(buffer)).  But a step call that
returns the end-of-input error increments end unconditionally, so once the
buffer is exhausted, repeated calls push end beyond len(buffer) and the
upper bound of the invariant fails (see the counterexample). -/
theorem c7_amended (T : Type) (r : Rule T) (buf : Str) (l : Lexer T)
    (h : l.index.1 ≤ l.index.2) :
    ((Lexer.new r).index.1 ≤ (Lexer.new r).index.2 ∧
      (Lexer.new r).index.2 ≤ (Lexer.new r).buffer.length) ∧
    ((Lexer.with_buffer r buf).index.1 ≤ (Lexer.with_buffer r buf).index.2 ∧
      (Lexer.with_buffer r buf).index.2 ≤ (Lexer.with_buffer r buf).buffer.length) ∧
    ((l.reset buf).index.1 ≤ (l.reset buf).index.2 ∧
      (l.reset buf).index.2 ≤ (l.reset buf).buffer.length) ∧
    ((l.step).1.index.1 ≤ (l.step).1.index.2) ∧
    ((l.step).1.buffer = l.buffer) ∧
    (∀ t, (l.step).2 = Except.ok t →
      (l.step).1.index.2 < (l.step).1.buffer.length) := by
  refine ⟨⟨Nat.le_refl 0, Nat.zero_le _⟩, ⟨Nat.le_refl 0, Nat.zero_le _⟩,
    ⟨Nat.le_refl 0, Nat.zero_le _⟩, ?_, ?_, ?_⟩
  · simp only [Lexer.step]
    split
    · exact Nat.le_succ_of_le h
    · split <;> simp <;> omega
  · simp only [Lexer.step]
    split
    · rfl
    · split <;> rfl
  · intro t
    simp only [Lexer.step]
    split
    · intro hc
      exact absurd hc (by simp)
    · rename_i hlen
      split <;> intro _ <;> simp <;> omega

/-- C7, witness: the amended claim applied to a lexer over the buffer "ab"
in its initial state, where the first step returns Ok. -/
theorem c7_amended_witness :
    (((Lexer.new (Rule.Numeric : Rule Unit)).index.1
        ≤ (Lexer.new (Rule.Numeric : Rule Unit)).index.2 ∧
      (Lexer.new (Rule.Numeric : Rule Unit)).index.2
        ≤ (Lexer.new (Rule.Numeric : Rule Unit)).buffer.length) ∧
    ((Lexer.with_buffer (Rule.Numeric : Rule Unit) "ab".toList).index.1
        ≤ (Lexer.with_buffer (Rule.Numeric : Rule Unit) "ab".toList).index.2 ∧
      (Lexer.with_buffer (Rule.Numeric : Rule Unit) "ab".toList).index.2
        ≤ (Lexer.with_buffer (Rule.Numeric : Rule Unit) "ab".toList).buffer.length) ∧
    (((Lexer.with_buffer (Rule.Numeric : Rule Unit) "ab".toList).reset "ab".toList).index.1
        ≤ ((Lexer.with_buffer (Rule.Numeric : Rule Unit) "ab".toList).reset "ab".toList).index.2 ∧
      ((Lexer.with_buffer (Rule.Numeric : Rule Unit) "ab".toList).reset "ab".toList).index.2
        ≤ ((Lexer.with_buffer (Rule.Numeric : Rule Unit) "ab".toList).reset "ab".toList).buffer.length) ∧
    (((Lexer.with_buffer (Rule.Numeric : Rule Unit) "ab".toList).step).1.index.1
        ≤ ((Lexer.with_buffer (Rule.Numeric : Rule Unit) "ab".toList).step).1.index.2) ∧
    (((Lexer.with_buffer (Rule.Numeric : Rule Unit) "ab".toList).step).1.buffer
        = (Lexer.with_buffer (Rule.Numeric : Rule Unit) "ab".toList).buffer) ∧
    (∀ t, ((Lexer.with_buffer (Rule.Numeric : Rule Unit) "ab".toList).step).2 = Except.ok t →
      ((Lexer.with_buffer (Rule.Numeric : Rule Unit) "ab".toList).step).1.index.2
        < ((Lexer.with_buffer (Rule.Numeric : Rule Unit) "ab".toList).step).1.buffer.length)) :=
  c7_amended Unit Rule.Numeric "ab".toList
    (Lexer.with_buffer Rule.Numeric "ab".toList) (Nat.le_refl 0)

/-- C10: the byte-level model of step.  First conjunct: on any all-ASCII
buffer (every byte below 128) step never hits the slicing panic, whatever
the window offsets with start ≤ end and whatever the rule classification
function — every byte offset is then a character boundary.  Second conjunct:
on the two-byte buffer of the single character U+00E9 (bytes 195, 169) the
very first step slices at byte offset 1, which falls inside the character,
and the slice operation is undefined (the Rust code panics), for every
classification function alike. -/
theorem c10_byte_boundary (T : Type) (m : List Nat → MatchResult T)
    (buf : List Nat) (idx : Nat × Nat)
    (h1 : ∀ b ∈ buf, b < 128) (h2 : idx.1 ≤ idx.2) :
    stepBytes m buf idx ≠ none ∧
    ∀ (m2 : List Nat → MatchResult T), stepBytes m2 [195, 169] (0, 0) = none := by
  constructor
  · by_cases hlen : idx.2 + 1 ≥ buf.length
    · simp [stepBytes, hlen]
    · have he : idx.2 + 1 < buf.length := by omega
      have hb : ∀ i, i < buf.length → isCharBoundary buf i = true := by
        intro i hi
        have hlt : buf[i] < 128 := h1 _ (List.getElem_mem hi)
        simp [isCharBoundary, contByte, hi]
        omega
      have hs : sliceBytes buf idx.1 (idx.2 + 1)
          = some ((buf.drop idx.1).take (idx.2 + 1 - idx.1)) := by
        simp only [sliceBytes]
        rw [if_pos]
        simp only [Bool.and_eq_true, decide_eq_true_eq]
        exact ⟨⟨by omega, hb _ (by omega)⟩, hb _ he⟩
      rcases hm : m ((buf.drop idx.1).take (idx.2 + 1 - idx.1)) with _ | tok | _ <;>
        simp [stepBytes, hlen, hs, hm]
  · intro m2
    rfl

/-- Once the Any loop has counted at least one PartialMatch, no later full
match is returned any more: the rest of the walk can only end in None. -/
theorem anyWalk_pos {T : Type} (rs : List (Rule T)) (W : Str) (c : Nat)
    (h : c ≠ 0) : Rule.anyWalk rs W c = .None := by
  induction rs generalizing c with
  | nil => rfl
  | cons r rs ih =>
      cases hr : Rule.matches r W with
      | None => simp only [Rule.anyWalk, hr]; exact ih c h
      | Match tok => simp only [Rule.anyWalk, hr]; rw [if_neg h]; exact ih c h
      | PartialMatch => simp only [Rule.anyWalk, hr]; exact ih (c + 1) (Nat.succ_ne_zero c)

/-- The Any loop never produces PartialMatch, whatever the running count. -/
theorem anyWalk_ne_partial {T : Type} (rs : List (Rule T)) (W : Str) (c : Nat) :
    Rule.anyWalk rs W c ≠ .PartialMatch := by
  induction rs generalizing c with
  | nil => simp [Rule.anyWalk]
  | cons r rs ih =>
      cases hr : Rule.matches r W with
      | None => simp only [Rule.anyWalk, hr]; exact ih c
      | Match tok =>
          simp only [Rule.anyWalk, hr]
          by_cases hc : c = 0
          · rw [if_pos hc]; simp
          · rw [if_neg hc]; exact ih c
      | PartialMatch => simp only [Rule.anyWalk, hr]; exact ih (c + 1)

/-- Characterization of the Any loop started with count 0: it returns a full
match carrying v exactly when some sub-rule at index i fully matches
carrying v while every sub-rule before index i yields None (so in
particular no PartialMatch was counted before the full match occurred). -/
theorem anyWalk_match_iff {T : Type} (rs : List (Rule T)) (W : Str) (v : Option T) :
    Rule.anyWalk rs W 0 = .Match v ↔
      ∃ (i : Nat) (r : Rule T), rs[i]? = some r ∧ Rule.matches r W = .Match v ∧
        ∀ (j : Nat) (r2 : Rule T), j < i → rs[j]? = some r2 →
          Rule.matches r2 W = .None := by
  induction rs with
  | nil =>
      constructor
      · intro h
        exact absurd h (by simp [Rule.anyWalk])
      · rintro ⟨i, r, hget, -, -⟩
        simp at hget
  | cons r rs ih =>
      cases hr : Rule.matches r W with
      | None =>
          simp only [Rule.anyWalk, hr]
          rw [ih]
          constructor
          · rintro ⟨i, r1, hget, hm, hpre⟩
            refine ⟨i + 1, r1, by simpa using hget, hm, ?_⟩
            intro j r2 hj hget2
            cases j with
            | zero =>
                simp at hget2
                rw [← hget2]
                exact hr
            | succ j =>
                exact hpre j r2 (by omega) (by simpa using hget2)
          · rintro ⟨i, r1, hget, hm, hpre⟩
            cases i with
            | zero =>
                simp at hget
                rw [← hget, hr] at hm
                exact absurd hm (by simp)
            | succ i =>
                refine ⟨i, r1, by simpa using hget, hm, ?_⟩
                intro j r2 hj hget2
                exact hpre (j + 1) r2 (by omega) (by simpa using hget2)
      | Match tok =>
          simp only [Rule.anyWalk, hr]
          rw [if_pos trivial]
          constructor
          · intro h
            refine ⟨0, r, by simp, hr.trans h, ?_⟩
            intro j r2 hj hget2
            exact absurd hj (by omega)
          · rintro ⟨i, r1, hget, hm, hpre⟩
            cases i with
            | zero =>
                simp at hget
                rw [← hget, hr] at hm
                exact hm
            | succ i =>
                have h0 := hpre 0 r (by omega) (by simp)
                rw [hr] at h0
                exact absurd h0 (by simp)
      | PartialMatch =>
          simp only [Rule.anyWalk, hr]
          rw [anyWalk_pos rs W 1 (by omega)]
          constructor
          · intro h
            exact absurd h (by simp)
          · rintro ⟨i, r1, hget, hm, hpre⟩
            cases i with
            | zero =>
                simp at hget
                rw [← hget, hr] at hm
                exact absurd hm (by simp)
            | succ i =>
                have h0 := hpre 0 r (by omega) (by simp)
                rw [hr] at h0
                exact absurd h0 (by simp)

/-- C2: the Any combinator walks the rule sequence counting PartialMatch
results; a sub-rule full match (with its value) is returned exactly when
every earlier-listed sub-rule yielded NoMatch — equivalently, when the count
of PartialMatch results is still 0 at that point and no earlier full match
fired first; a full match occurring after any PartialMatch is dropped and
the walk continues; and when the walk ends without an early return the
result is NoMatch.  In particular the Any result is never PartialMatch. -/
theorem c2_any_first_match (T : Type) (rs : List (Rule T)) (W : Str) :
    Rule.matches (.Any rs) W ≠ .PartialMatch ∧
    ∀ v, Rule.matches (.Any rs) W = .Match v ↔
      ∃ (i : Nat) (r : Rule T), rs[i]? = some r ∧ Rule.matches r W = .Match v ∧
        ∀ (j : Nat) (r2 : Rule T), j < i → rs[j]? = some r2 →
          Rule.matches r2 W = .None := by
  constructor
  · show Rule.anyWalk rs W 0 ≠ .PartialMatch
    exact anyWalk_ne_partial rs W 0
  · intro v
    show Rule.anyWalk rs W 0 = .Match v ↔ _
    exact anyWalk_match_iff rs W v

/-- C10, witness: the theorem applied to the one-byte ASCII buffer [97] and
the constant NoMatch classifier at the initial window offsets. -/
theorem c10_byte_boundary_witness :
    stepBytes (fun _ => (MatchResult.None : MatchResult Unit)) [97] (0, 0) ≠ none ∧
    ∀ (m2 : List Nat → MatchResult Unit), stepBytes m2 [195, 169] (0, 0) = none :=
  c10_byte_boundary Unit (fun _ => MatchResult.None) [97] (0, 0) (by decide)
    (Nat.le_refl 0)

/-- Every rule tree has positive size (used to found the strong inductions
below). -/
theorem rule_sizeOf_pos {T : Type} (R : Rule T) : 0 < sizeOf R := by
  cases R <;> simp

/-- mapVal preserves the is_match test. -/
theorem isMatch_mapVal {T U : Type} (g : T → U) (x : MatchResult T) :
    (MatchResult.mapVal g x).isMatch = x.isMatch := by
  cases x <;> rfl

/-- mapVal preserves the is_partial_match test. -/
theorem isPartialMatch_mapVal {T U : Type} (g : T → U) (x : MatchResult T) :
    (MatchResult.mapVal g x).isPartialMatch = x.isPartialMatch := by
  cases x <;> rfl

/-- mapVal preserves the is_none test. -/
theorem isNone_mapVal {T U : Type} (g : T → U) (x : MatchResult T) :
    (MatchResult.mapVal g x).isNone = x.isNone := by
  cases x <;> rfl

/-- The All loop commutes with mapping the extracted tokens, assuming the
member rules already do. -/
theorem allWalk_mapTokList {T U : Type} (g : T → U) (W : Str) :
    ∀ rs : List (Rule T),
      (∀ r ∈ rs, Rule.matches (Rule.mapTok g r) W
          = MatchResult.mapVal g (Rule.matches r W)) →
      Rule.allWalk (Rule.mapTokList g rs) W
        = Option.map (MatchResult.mapVal g) (Rule.allWalk rs W) := by
  intro rs
  induction rs with
  | nil => intro _; rfl
  | cons r rs ih =>
      intro h
      have hr := h r (by simp)
      have hrest := ih (fun r2 hm => h r2 (by simp [hm]))
      cases hm : Rule.matches r W with
      | None => simp [Rule.mapTokList, Rule.allWalk, hr, hm, MatchResult.mapVal]
      | Match tok =>
          simp [Rule.mapTokList, Rule.allWalk, hr, hm, MatchResult.mapVal, hrest]
      | PartialMatch =>
          simp [Rule.mapTokList, Rule.allWalk, hr, hm, MatchResult.mapVal]

/-- The Any loop commutes with mapping the extracted tokens, assuming the
member rules already do; the running count is unaffected. -/
theorem anyWalk_mapTokList {T U : Type} (g : T → U) (W : Str) :
    ∀ (rs : List (Rule T)) (c : Nat),
      (∀ r ∈ rs, Rule.matches (Rule.mapTok g r) W
          = MatchResult.mapVal g (Rule.matches r W)) →
      Rule.anyWalk (Rule.mapTokList g rs) W c
        = MatchResult.mapVal g (Rule.anyWalk rs W c) := by
  intro rs
  induction rs with
  | nil => intro c _; rfl
  | cons r rs ih =>
      intro c h
      have hr := h r (by simp)
      have hrest := fun c2 => ih c2 (fun r2 hm => h r2 (by simp [hm]))
      cases hm : Rule.matches r W with
      | None => simp [Rule.mapTokList, Rule.anyWalk, hr, hm, MatchResult.mapVal, hrest]
      | Match tok =>
          by_cases hc : c = 0
          · simp [Rule.mapTokList, Rule.anyWalk, hr, hm, MatchResult.mapVal, hc]
          · simp [Rule.mapTokList, Rule.anyWalk, hr, hm, MatchResult.mapVal, hc, hrest]
      | PartialMatch =>
          simp [Rule.mapTokList, Rule.anyWalk, hr, hm, MatchResult.mapVal, hrest]

/-- Rule matching commutes with mapping the extracted tokens: the
classification (and the presence of a value) of a window depends only on the
shape of the rule tree and the window text, never on what the extractor
functions compute. -/
theorem mapTok_matches {T U : Type} (g : T → U) :
    ∀ (n : Nat) (R : Rule T), sizeOf R ≤ n → ∀ W,
      Rule.matches (Rule.mapTok g R) W = MatchResult.mapVal g (Rule.matches R W) := by
  intro n
  induction n with
  | zero =>
      intro R hR
      exact absurd hR (by have := rule_sizeOf_pos R; omega)
  | succ n ih =>
      intro R hR W
      cases R with
      | Literal l =>
          by_cases h1 : W = l
          · simp [Rule.mapTok, Rule.matches, h1, MatchResult.mapVal]
          · by_cases h2 : W.isPrefixOf l <;>
              simp [Rule.mapTok, Rule.matches, h1, h2, MatchResult.mapVal]
      | Numeric =>
          by_cases h1 : W.all Char.isDigit <;>
            simp [Rule.mapTok, Rule.matches, h1, MatchResult.mapVal]
      | Alphabetic =>
          by_cases h1 : W.all Char.isAlpha <;>
            simp [Rule.mapTok, Rule.matches, h1, MatchResult.mapVal]
      | Whitespace =>
          by_cases h1 : W.all Char.isWhitespace <;>
            simp [Rule.mapTok, Rule.matches, h1, MatchResult.mapVal]
      | EndsWith l =>
          by_cases h1 : l.isSuffixOf W <;>
            simp [Rule.mapTok, Rule.matches, h1, MatchResult.mapVal]
      | Value r out =>
          have hr := ih r (by simp at hR; omega) W
          cases hm : Rule.matches r W <;>
            simp [Rule.mapTok, Rule.matches, hr, hm, MatchResult.mapVal,
              MatchResult.isMatch, MatchResult.isPartialMatch]
      | Ignore r =>
          have hr := ih r (by simp at hR; omega) W
          simpa [Rule.mapTok, Rule.matches] using hr
      | Not r =>
          have hr := ih r (by simp at hR; omega) W
          cases hm : Rule.matches r W <;>
            simp [Rule.mapTok, Rule.matches, hr, hm, MatchResult.mapVal,
              MatchResult.isNone]
      | Only r =>
          have hr := ih r (by simp at hR; omega) W
          simpa [Rule.mapTok, Rule.matches] using hr
      | Both a b =>
          have ha := ih a (by simp at hR; omega) W
          have hb := ih b (by simp at hR; omega) W
          cases hma : Rule.matches a W <;> cases hmb : Rule.matches b W <;>
            simp [Rule.mapTok, Rule.matches, ha, hb, hma, hmb, MatchResult.mapVal,
              MatchResult.isMatch]
      | Either a b =>
          have ha := ih a (by simp at hR; omega) W
          have hb := ih b (by simp at hR; omega) W
          cases hma : Rule.matches a W <;> cases hmb : Rule.matches b W <;>
            simp [Rule.mapTok, Rule.matches, ha, hb, hma, hmb, MatchResult.mapVal,
              MatchResult.isMatch, MatchResult.isPartialMatch]
      | All rs out =>
          have hmembers : ∀ r2 ∈ rs, Rule.matches (Rule.mapTok g r2) W
              = MatchResult.mapVal g (Rule.matches r2 W) := by
            intro r2 hmem
            refine ih r2 ?_ W
            have h1 := List.sizeOf_lt_of_mem hmem
            simp at hR
            omega
          have hw := allWalk_mapTokList g W rs hmembers
          cases hn : Rule.allWalk rs W with
          | none => simp [Rule.mapTok, Rule.matches, hw, hn, MatchResult.mapVal]
          | some early => simp [Rule.mapTok, Rule.matches, hw, hn, MatchResult.mapVal]
      | Any rs =>
          have hmembers : ∀ r2 ∈ rs, Rule.matches (Rule.mapTok g r2) W
              = MatchResult.mapVal g (Rule.matches r2 W) := by
            intro r2 hmem
            refine ih r2 ?_ W
            have h1 := List.sizeOf_lt_of_mem hmem
            simp at hR
            omega
          have hw := anyWalk_mapTokList g W rs 0 hmembers
          simp [Rule.mapTok, Rule.matches, hw]

/-- C8: rule matching is deterministic — it is a pure function of the rule
tree and the window text, so two evaluations of the same rule on the same
window are identical; moreover the classification and the presence or
absence of an extracted value depend only on the shape of the tree and the
window contents, not on what the extractors compute: matching commutes with
any mapping of token values. -/
theorem c8_deterministic (T : Type) (R : Rule T) (W : Str) :
    Rule.matches R W = Rule.matches R W ∧
    ∀ (U : Type) (g : T → U),
      Rule.matches (Rule.mapTok g R) W = MatchResult.mapVal g (Rule.matches R W) :=
  ⟨rfl, fun _ g => mapTok_matches g (sizeOf R) R (Nat.le_refl _) W⟩

/-- A member of a value-free rule list is value-free. -/
theorem hasExtractList_eq_false {T : Type} :
    ∀ rs : List (Rule T), Rule.hasExtractList rs = false →
      ∀ r ∈ rs, Rule.hasExtract r = false := by
  intro rs
  induction rs with
  | nil =>
      intro _ r hm
      simp at hm
  | cons a rs ih =>
      intro h r hm
      simp only [Rule.hasExtractList, Bool.or_eq_false_iff] at h
      rcases List.mem_cons.mp hm with hm | hm
      · rw [hm]; exact h.1
      · exact ih h.2 r hm

/-- If every member rule classifies the window without attaching a value,
so does the Any loop, whatever the running count: the loop only ever
propagates the member results. -/
theorem anyWalk_valueFree {T : Type} (W : Str) :
    ∀ (rs : List (Rule T)) (c : Nat),
      (∀ r ∈ rs, (Rule.matches r W).valueFree = true) →
      (Rule.anyWalk rs W c).valueFree = true := by
  intro rs
  induction rs with
  | nil => intro c _; rfl
  | cons r rs ih =>
      intro c h
      have hr := h r (by simp)
      have hrest := fun c2 => ih c2 (fun r2 hm => h r2 (by simp [hm]))
      cases hm : Rule.matches r W with
      | None => simp only [Rule.anyWalk, hm]; exact hrest c
      | Match tok =>
          simp only [Rule.anyWalk, hm]
          by_cases hc : c = 0
          · rw [if_pos hc]; rw [hm] at hr; exact hr
          · rw [if_neg hc]; exact hrest c
      | PartialMatch => simp only [Rule.anyWalk, hm]; exact hrest (c + 1)

/-- A rule tree with no Value and no All node anywhere never attaches a
value to a full match. -/
theorem hasExtract_false_valueFree {T : Type} :
    ∀ (n : Nat) (R : Rule T), sizeOf R ≤ n → Rule.hasExtract R = false →
      ∀ W, (Rule.matches R W).valueFree = true := by
  intro n
  induction n with
  | zero =>
      intro R hR
      exact absurd hR (by have := rule_sizeOf_pos R; omega)
  | succ n ih =>
      intro R hR hext W
      cases R with
      | Literal l =>
          simp only [Rule.matches]
          split
          · rfl
          · split <;> rfl
      | Numeric => simp only [Rule.matches]; split <;> rfl
      | Alphabetic => simp only [Rule.matches]; split <;> rfl
      | Whitespace => simp only [Rule.matches]; split <;> rfl
      | EndsWith l => simp only [Rule.matches]; split <;> rfl
      | Value r out => exact absurd hext (by simp [Rule.hasExtract])
      | All rs out => exact absurd hext (by simp [Rule.hasExtract])
      | Ignore r =>
          simp only [Rule.hasExtract] at hext
          have hr := ih r (by simp at hR; omega) hext W
          simpa [Rule.matches] using hr
      | Only r =>
          simp only [Rule.hasExtract] at hext
          have hr := ih r (by simp at hR; omega) hext W
          simpa [Rule.matches] using hr
      | Not r => simp only [Rule.matches]; split <;> rfl
      | Both a b =>
          simp only [Rule.matches]
          split
          · split <;> rfl
          · rfl
      | Either a b =>
          simp only [Rule.matches]
          split
          · rfl
          · split
            · rfl
            · split
              · rfl
              · split <;> rfl
      | Any rs =>
          simp only [Rule.hasExtract] at hext
          simp only [Rule.matches]
          apply anyWalk_valueFree
          intro r hmem
          refine ih r ?_ (hasExtractList_eq_false rs hext r hmem) W
          have h1 := List.sizeOf_lt_of_mem hmem
          simp at hR
          omega

/-- C9: only the Value and All constructors ever attach an extracted value
to a full match.  The Both combinator returns a value-free full match even
when its sub-rules would carry values; the leaf rules Literal, Numeric,
Alphabetic, Whitespace and EndsWith and the Not combinator always return
value-free full matches; and a rule tree containing no Value and no All
node never produces a full match carrying a value on any window. -/
theorem c9_value_attachment (T : Type) (W : Str) (v : Option T)
    (A B R : Rule T) (lit : Str) :
    (Rule.matches (.Both A B) W = .Match v → v = none) ∧
    (Rule.matches (.Literal lit) W = .Match v → v = none) ∧
    (Rule.matches (.Numeric : Rule T) W = .Match v → v = none) ∧
    (Rule.matches (.Alphabetic : Rule T) W = .Match v → v = none) ∧
    (Rule.matches (.Whitespace : Rule T) W = .Match v → v = none) ∧
    (Rule.matches (.EndsWith lit) W = .Match v → v = none) ∧
    (Rule.matches (.Not R) W = .Match v → v = none) ∧
    (Rule.hasExtract R = false →
      ∀ v2, Rule.matches R W = .Match v2 → v2 = none) := by
  have hnone : ∀ x : MatchResult T, x.valueFree = true → ∀ v3, x = .Match v3 → v3 = none := by
    intro x hx v3 hm
    rw [hm] at hx
    cases v3 with
    | none => rfl
    | some t => simp [MatchResult.valueFree] at hx
  refine ⟨?_, ?_, ?_, ?_, ?_, ?_, ?_, ?_⟩
  · intro h
    simp only [Rule.matches] at h
    split at h
    · split at h
      · simp only [MatchResult.Match.injEq] at h
        exact h.symm
      · exact absurd h (by simp)
    · exact absurd h (by simp)
  · intro h
    simp only [Rule.matches] at h
    split at h
    · simp only [MatchResult.Match.injEq] at h
      exact h.symm
    · split at h
      · exact absurd h (by simp)
      · exact absurd h (by simp)
  · intro h
    simp only [Rule.matches] at h
    split at h
    · simp only [MatchResult.Match.injEq] at h
      exact h.symm
    · exact absurd h (by simp)
  · intro h
    simp only [Rule.matches] at h
    split at h
    · simp only [MatchResult.Match.injEq] at h
      exact h.symm
    · exact absurd h (by simp)
  · intro h
    simp only [Rule.matches] at h
    split at h
    · simp only [MatchResult.Match.injEq] at h
      exact h.symm
    · exact absurd h (by simp)
  · intro h
    simp only [Rule.matches] at h
    split at h
    · simp only [MatchResult.Match.injEq] at h
      exact h.symm
    · exact absurd h (by simp)
  · intro h
    simp only [Rule.matches] at h
    split at h
    · simp only [MatchResult.Match.injEq] at h
      exact h.symm
    · exact absurd h (by simp)
  · intro hext v2 h
    exact hnone _ (hasExtract_false_valueFree (sizeOf R) R (Nat.le_refl _) hext W) v2 h

end Mile
